import Mathlib

/-!
Verification of the process-mining variability metrics: a shallow embedding of
the `Event`/`Trace`/`Log` data model (log.py) and of the three metrics
(variability.py), followed by theorems settling the specification claims.
-/

set_option maxHeartbeats 1000000

/-- An event: integer code plus name (class `Event` in log.py; its `__eq__`
compares both code and name, which matches structural equality here). -/
structure Event where
  event_code : Nat
  event_name : String
deriving DecidableEq, Repr

/-- A trace: ordered event list plus occurrence frequency (class `Trace` in
log.py; its `__eq__` compares the event lists only). -/
structure Trace where
  event_list : List Event
  frequency : Nat
deriving DecidableEq, Repr

/-- `Trace.length` (log.py): length of the event list. -/
def Trace.length (t : Trace) : Nat := t.event_list.length

/-- `Trace.get_all_prefixes` (log.py): `event_list[0:i]` for `i in range(length)`,
i.e. every proper leading slice including the empty one. -/
def Trace.get_all_prefixes (t : Trace) : List (List Event) :=
  (List.range t.length).map fun i => t.event_list.take i

/-- `Trace.contains_prefix` (log.py), renamed: reject when the candidate is
longer than the trace, otherwise compare pointwise over the candidate's
positions (the zip ranges over exactly those positions). -/
def Trace.contains_pre (t : Trace) (pre : List Event) : Bool :=
  if pre.length > t.length then false
  else (pre.zip t.event_list).all fun p => decide (p.1 = p.2)

/-- A log: the event dictionary (insertion-ordered name-to-occurrence-count
entries, as in log.py where event codes come from key positions) and the trace
store. -/
structure Log where
  dictionary : List (String × Nat)
  trace_list : List Trace
deriving Repr

/-- `Log.get_keys_list` (log.py): the dictionary keys in insertion order. -/
def Log.get_keys_list (L : Log) : List String := L.dictionary.map Prod.fst

/-- `Log.get_event` (log.py): `get_keys_list().index(name)` raises ValueError
when the name is absent, so the result is modeled as an Option. -/
def Log.get_event (L : Log) (event_name : String) : Option Event :=
  (L.get_keys_list.findIdx? fun k => k == event_name).map fun c => ⟨c, event_name⟩

/-- `Log.get_trace` (log.py): linear search for a sequence-equal stored trace. -/
def Log.get_trace (L : Log) (event_list : List Event) : Option Trace :=
  L.trace_list.find? fun t => decide (t.event_list = event_list)

/-- `Log.size` (log.py): accumulate the stored frequencies. -/
def Log.size (L : Log) : Nat :=
  L.trace_list.foldl (fun acc t => acc + t.frequency) 0

/-- Dictionary update performed by Log.load's inner loop: insert 0 when the key
is absent, then increment; net effect, append `(name, 1)` or bump the count in
place (key order untouched). -/
def registerName (d : List (String × Nat)) (name : String) : List (String × Nat) :=
  if name ∈ d.map Prod.fst then
    d.map fun p => if p.1 = name then (p.1, p.2 + 1) else p
  else
    d ++ [(name, 1)]

/-- One iteration of the inner event loop of Log.load: register the name, then
append the Event produced by get_event on the updated dictionary.  The none
branch is unreachable because the name was just registered (Python would raise
there). -/
def loadEventStep (acc : List (String × Nat) × List Event) (name : String) :
    List (String × Nat) × List Event :=
  match Log.get_event ⟨registerName acc.1 name, []⟩ name with
  | some e => (registerName acc.1 name, acc.2 ++ [e])
  | none => (registerName acc.1 name, acc.2)

/-- The inner loop of Log.load over one case (a case being the list of its
event names, each record's `concept:name`). -/
def caseRun (d : List (String × Nat)) (c : List String) :
    List (String × Nat) × List Event :=
  c.foldl loadEventStep (d, [])

/-- The in-place `saved_trace.frequency += 1` of Log.load: bump the first
sequence-equal stored trace. -/
def incFirstFreq : List Trace → List Event → List Trace
  | [], _ => []
  | t :: ts, evs =>
    if t.event_list = evs then { t with frequency := t.frequency + 1 } :: ts
    else t :: incFirstFreq ts evs

/-- One iteration of the outer loop of Log.load: build the case's event list
(mutating the dictionary), then either append a fresh Trace with frequency 1
or increment the matched stored trace. -/
def Log.loadCase (L : Log) (c : List String) : Log :=
  let r := caseRun L.dictionary c
  match L.get_trace r.2 with
  | some _ => { dictionary := r.1, trace_list := incFirstFreq L.trace_list r.2 }
  | none => { dictionary := r.1, trace_list := L.trace_list ++ [⟨r.2, 1⟩] }

/-- `Log.load` (log.py) over a list of cases. -/
def Log.load (L : Log) (cases : List (List String)) : Log :=
  cases.foldl Log.loadCase L

/-- A fresh Log, as produced by the constructor. -/
def emptyLog : Log := ⟨[], []⟩

/-- A log built by a single load pass over a fresh Log (as done in main.py). -/
def loadLog (cases : List (List String)) : Log := emptyLog.load cases

/-- Rolling-row inner loop of `_levenshtein_distance` (variability.py): walk t1
against the previous row (reading cells i1 and i1+1), carrying the last value
appended to the new row.  The catch-all is unreachable on well-formed rows
(Python would IndexError). -/
def rowAux (c2 : Event) : List Event → List Nat → Nat → List Nat
  | [], _, _ => []
  | c1 :: t1, d0 :: d1 :: ds, last =>
    let v := if c1 = c2 then d0 else 1 + min d0 (min d1 last)
    v :: rowAux c2 t1 (d1 :: ds) v
  | _ :: _, _, _ => []

/-- Row iteration of `_levenshtein_distance`: start from the row [0..len t1],
produce one row per character of t2 (paired with its index), and read the last
cell of the final row. -/
def levCore (t1 t2 : List Event) : Nat :=
  (t2.enum.foldl
      (fun distances p => (p.1 + 1) :: rowAux p.2 t1 distances (p.1 + 1))
      (List.range (t1.length + 1))).getLastD 0

/-- `_levenshtein_distance` (variability.py), including the initial swap that
puts the shorter trace first. -/
def levenshtein_distance (t1 t2 : Trace) : Nat :=
  if t1.length > t2.length then levCore t2.event_list t1.event_list
  else levCore t1.event_list t2.event_list

/-- `compute_edit_distance_variability` (variability.py): anchor at traces[0],
accumulate weighted distances to every sequence-unequal stored trace, divide by
the comparison count.  `traces[0]` on an empty store raises IndexError and
`distance / 0` raises ZeroDivisionError; both faults are modeled as none. -/
def compute_edit_distance_variability (L : Log) : Option ℚ :=
  match L.trace_list with
  | [] => none
  | trace_1 :: _ =>
    let r := L.trace_list.foldl
      (fun (acc : Nat × Nat) trace_2 =>
        if trace_1.event_list ≠ trace_2.event_list then
          (acc.1 + levenshtein_distance trace_1 trace_2 * trace_1.frequency * trace_2.frequency,
           acc.2 + 1)
        else acc)
      (0, 0)
    if r.2 = 0 then none else some ((r.1 : ℚ) / (r.2 : ℚ))

/-- `compute_variant_variability` (variability.py). -/
def compute_variant_variability (L : Log) : Nat := L.trace_list.length

/-- The deduplicated accumulated list of proper prefixes over all stored traces
(first loop of `compute_my_variability`). -/
def prefList (L : Log) : List (List Event) :=
  L.trace_list.foldl
    (fun acc t => t.get_all_prefixes.foldl (fun a p => if p ∈ a then a else a ++ [p]) acc)
    []

/-- Numerator loop of `_prefix_likelihood_estimator`: count stored traces that
start with the candidate. -/
def likelihood_num (L : Log) (pre : List Event) : Nat :=
  L.trace_list.foldl (fun acc t => if t.contains_pre pre then acc + 1 else acc) 0

/-- Denominator of `_prefix_likelihood_estimator`: sum of stored trace lengths. -/
def likelihood_den (L : Log) : Nat :=
  (L.trace_list.map Trace.length).sum

/-- `_prefix_likelihood_estimator` (variability.py).  Python float division of
two integers; its exact value is the rational quotient. -/
def likelihood_estimator (L : Log) (pre : List Event) : ℚ :=
  (likelihood_num L pre : ℚ) / (likelihood_den L : ℚ)

/-- `compute_my_variability` (variability.py): accumulate p * log10(p) over the
deduplicated prefix list, then negate.  Python's `math.log(p, 10)` is
`Real.logb 10 p`; the real logarithm makes this noncomputable. -/
noncomputable def compute_my_variability (L : Log) : ℝ :=
  -((prefList L).foldl
      (fun acc x =>
        acc + (likelihood_estimator L x : ℝ) * Real.logb 10 (likelihood_estimator L x : ℝ))
      0)

/-- Textbook recursive Levenshtein distance over event lists: the reference
definition that the rolling-row implementation is proved equal to. -/
def levRec : List Event → List Event → Nat
  | [], ys => ys.length
  | x :: xs, [] => (x :: xs).length
  | x :: xs, y :: ys =>
    if x = y then levRec xs ys
    else 1 + min (levRec xs ys) (min (levRec xs (y :: ys)) (levRec (x :: xs) ys))
termination_by xs ys => xs.length + ys.length
decreasing_by
  all_goals simp [List.length_cons]
  all_goals omega

/-! ### Dictionary and load infrastructure -/

/-- The key sequence of a dictionary value. -/
def dictKeys (d : List (String × Nat)) : List String := d.map Prod.fst

theorem get_keys_list_eq (L : Log) : L.get_keys_list = dictKeys L.dictionary := rfl

theorem dictKeys_registerName (d : List (String × Nat)) (n : String) :
    dictKeys (registerName d n) =
      if n ∈ dictKeys d then dictKeys d else dictKeys d ++ [n] := by
  unfold registerName dictKeys
  by_cases h : n ∈ d.map Prod.fst
  · simp only [h, if_true, List.map_map]
    refine List.map_congr_left fun p _ => ?_
    by_cases hp : p.1 = n <;> simp [hp]
  · simp [h]

theorem registerName_keys_isPrefix (d : List (String × Nat)) (n : String) :
    dictKeys d <+: dictKeys (registerName d n) := by
  rw [dictKeys_registerName]
  by_cases h : n ∈ dictKeys d
  · simp [h]
  · simp only [h, if_false]
    exact List.prefix_append _ _

theorem mem_dictKeys_registerName (d : List (String × Nat)) (n : String) :
    n ∈ dictKeys (registerName d n) := by
  rw [dictKeys_registerName]
  by_cases h : n ∈ dictKeys d <;> simp [h]

theorem findIdx?_append_some {p : String → Bool} {l l' : List String} {i : Nat}
    (h : List.findIdx? p l = some i) : List.findIdx? p (l ++ l') = some i := by
  rw [List.findIdx?_append, h]
  rfl

theorem findIdx?_isPrefix_some {p : String → Bool} {l m : List String} {i : Nat}
    (hp : l <+: m) (h : List.findIdx? p l = some i) : List.findIdx? p m = some i := by
  obtain ⟨t, rfl⟩ := hp
  exact findIdx?_append_some h

theorem findIdx?_of_mem {l : List String} {n : String} (h : n ∈ l) :
    ∃ i, List.findIdx? (fun k => k == n) l = some i := by
  rcases hn : List.findIdx? (fun k => k == n) l with _ | i
  · rw [List.findIdx?_eq_none_iff] at hn
    have := hn n h
    simp at this
  · exact ⟨i, rfl⟩

theorem findIdx?_concat_self {l : List String} {n : String} (h : n ∉ l) :
    List.findIdx? (fun k => k == n) (l ++ [n]) = some l.length := by
  rw [List.findIdx?_append]
  have h1 : List.findIdx? (fun k => k == n) l = none := by
    rw [List.findIdx?_eq_none_iff]
    intro x hx
    simp only [beq_eq_false_iff_ne, ne_eq]
    exact fun hxn => h (hxn ▸ hx)
  have h2 : List.findIdx? (fun k => k == n) [n] = some 0 := by
    simp [List.findIdx?_cons]
  rw [h1, h2]
  simp [Option.or]

theorem get_event_dictionary (d : List (String × Nat)) (ts : List Trace) (name : String) :
    (Log.mk d ts).get_event name =
      (List.findIdx? (fun k => k == name) (dictKeys d)).map fun c => ⟨c, name⟩ := rfl

/-- After registering `name`, looking it up succeeds; the code is its old
position when seen before, and the next sequential code (the table size)
when fresh. -/
theorem get_event_registerName (d : List (String × Nat)) (n : String) :
    ∃ i, Log.get_event ⟨registerName d n, []⟩ n = some ⟨i, n⟩ ∧
      List.findIdx? (fun k => k == n) (dictKeys (registerName d n)) = some i := by
  obtain ⟨i, hi⟩ := findIdx?_of_mem (mem_dictKeys_registerName d n)
  exact ⟨i, by rw [get_event_dictionary, hi]; rfl, hi⟩

theorem loadEventStep_fst (acc : List (String × Nat) × List Event) (n : String) :
    (loadEventStep acc n).1 = registerName acc.1 n := by
  unfold loadEventStep
  rcases h : Log.get_event ⟨registerName acc.1 n, []⟩ n with _ | e <;> simp [h]

theorem loadEventStep_snd (acc : List (String × Nat) × List Event) (n : String) :
    ∃ i, (loadEventStep acc n).2 = acc.2 ++ [⟨i, n⟩] ∧
      List.findIdx? (fun k => k == n) (dictKeys (registerName acc.1 n)) = some i := by
  obtain ⟨i, hget, hidx⟩ := get_event_registerName acc.1 n
  exact ⟨i, by unfold loadEventStep; rw [hget], hidx⟩

theorem foldl_loadEventStep_fst (c : List String) (d : List (String × Nat)) (es : List Event) :
    (c.foldl loadEventStep (d, es)).1 = c.foldl registerName d := by
  induction c generalizing d es with
  | nil => rfl
  | cons n c ih =>
    rw [List.foldl_cons, List.foldl_cons]
    rcases hstep : loadEventStep (d, es) n with ⟨d', es'⟩
    have hd : d' = registerName d n := by
      have h := loadEventStep_fst (d, es) n
      rw [hstep] at h
      exact h
    subst hd
    exact ih _ es'

theorem caseRun_fst (d : List (String × Nat)) (c : List String) :
    (caseRun d c).1 = c.foldl registerName d :=
  foldl_loadEventStep_fst c d []

theorem dictKeys_foldl_registerName (c : List String) (d : List (String × Nat)) :
    dictKeys (c.foldl registerName d) =
      c.foldl (fun acc n => if n ∈ acc then acc else acc ++ [n]) (dictKeys d) := by
  induction c generalizing d with
  | nil => rfl
  | cons n c ih =>
    rw [List.foldl_cons, List.foldl_cons, ih, dictKeys_registerName]

theorem foldl_registerName_keys_isPrefix (c : List String) (d : List (String × Nat)) :
    dictKeys d <+: dictKeys (c.foldl registerName d) := by
  induction c generalizing d with
  | nil => exact List.prefix_refl _
  | cons n c ih =>
    exact (registerName_keys_isPrefix d n).trans (ih (registerName d n))

theorem mem_keys_foldl_registerName {c : List String} {n : String} (d : List (String × Nat))
    (h : n ∈ c) : n ∈ dictKeys (c.foldl registerName d) := by
  induction c generalizing d with
  | nil => cases h
  | cons m c ih =>
    rw [List.foldl_cons]
    rcases List.mem_cons.mp h with rfl | hc
    · exact (foldl_registerName_keys_isPrefix c (registerName d n)).subset
        (mem_dictKeys_registerName d n)
    · exact ih _ hc

theorem foldl_registerName_keys_of_mem (c : List String) (d : List (String × Nat))
    (h : ∀ n ∈ c, n ∈ dictKeys d) :
    dictKeys (c.foldl registerName d) = dictKeys d := by
  induction c generalizing d with
  | nil => rfl
  | cons n c ih =>
    rw [List.foldl_cons]
    have hk : dictKeys (registerName d n) = dictKeys d := by
      rw [dictKeys_registerName, if_pos (h n (List.mem_cons_self n c))]
    rw [ih (registerName d n) fun m hm => hk ▸ h m (List.mem_cons_of_mem n hm), hk]

/-- The event list built for a case: one Event per name, whose code is the
name's position in the final key sequence of the case's dictionary fold. -/
theorem foldl_loadEventStep_snd (c : List String) (d : List (String × Nat)) (es : List Event) :
    (c.foldl loadEventStep (d, es)).2 =
      es ++ c.map fun n =>
        Event.mk ((List.findIdx? (fun k => k == n)
          (dictKeys (c.foldl registerName d))).getD 0) n := by
  induction c generalizing d es with
  | nil => simp
  | cons n c ih =>
    rw [List.foldl_cons, List.foldl_cons]
    obtain ⟨i, hsnd, hidx⟩ := loadEventStep_snd (d, es) n
    rcases hstep : loadEventStep (d, es) n with ⟨d', es'⟩
    have hd : d' = registerName d n := by
      have h := loadEventStep_fst (d, es) n
      rw [hstep] at h
      exact h
    have hes : es' = es ++ [⟨i, n⟩] := by
      rw [hstep] at hsnd
      exact hsnd
    subst hd hes
    rw [ih]
    have hK : List.findIdx? (fun k => k == n)
        (dictKeys (c.foldl registerName (registerName d n))) = some i :=
      findIdx?_isPrefix_some (foldl_registerName_keys_isPrefix c (registerName d n)) hidx
    simp only [List.map_cons, hK]
    simp

theorem caseRun_snd (d : List (String × Nat)) (c : List String) :
    (caseRun d c).2 =
      c.map fun n =>
        Event.mk ((List.findIdx? (fun k => k == n)
          (dictKeys (c.foldl registerName d))).getD 0) n := by
  rw [caseRun, foldl_loadEventStep_snd]
  rfl

/-- The events built for a case depend only on the final key sequence; if every
name of the case is already registered, a rerun builds the same events. -/
theorem caseRun_snd_stable (d d' : List (String × Nat)) (c : List String)
    (h : dictKeys (c.foldl registerName d) = dictKeys (c.foldl registerName d')) :
    (caseRun d c).2 = (caseRun d' c).2 := by
  rw [caseRun_snd, caseRun_snd, h]

theorem loadCase_dictionary (L : Log) (c : List String) :
    (L.loadCase c).dictionary = (caseRun L.dictionary c).1 := by
  unfold Log.loadCase
  rcases h : L.get_trace (caseRun L.dictionary c).2 with _ | t <;> simp [h]

theorem load_keys_isPrefix (L : Log) (cases : List (List String)) :
    dictKeys L.dictionary <+: dictKeys (L.load cases).dictionary := by
  induction cases generalizing L with
  | nil => exact List.prefix_refl _
  | cons c cs ih =>
    refine List.IsPrefix.trans ?_ (ih (L.loadCase c))
    rw [loadCase_dictionary, caseRun_fst]
    exact foldl_registerName_keys_isPrefix c L.dictionary

/-! ### Size lemmas -/

theorem foldl_add_freq (l : List Trace) (n : Nat) :
    l.foldl (fun acc t => acc + t.frequency) n = n + (l.map Trace.frequency).sum := by
  induction l generalizing n with
  | nil => simp
  | cons t l ih => simp [ih, Nat.add_assoc]

theorem size_eq_sum (L : Log) : L.size = (L.trace_list.map Trace.frequency).sum := by
  rw [Log.size, foldl_add_freq]
  simp

theorem incFirstFreq_map_event_list (l : List Trace) (evs : List Event) :
    (incFirstFreq l evs).map Trace.event_list = l.map Trace.event_list := by
  induction l with
  | nil => rfl
  | cons t l ih =>
    unfold incFirstFreq
    by_cases h : t.event_list = evs <;> simp [h, ih]

theorem incFirstFreq_sum (l : List Trace) (evs : List Event)
    (h : ∃ t ∈ l, t.event_list = evs) :
    ((incFirstFreq l evs).map Trace.frequency).sum = (l.map Trace.frequency).sum + 1 := by
  induction l with
  | nil => simp at h
  | cons t l ih =>
    unfold incFirstFreq
    by_cases ht : t.event_list = evs
    · simp [ht]
      omega
    · obtain ⟨u, hu, hevs⟩ := h
      rcases List.mem_cons.mp hu with rfl | hul
      · exact absurd hevs ht
      · simp [ht, ih ⟨u, hul, hevs⟩]
        omega

theorem loadCase_size (L : Log) (c : List String) :
    (L.loadCase c).size = L.size + 1 := by
  rw [size_eq_sum, size_eq_sum]
  unfold Log.loadCase
  rcases h : L.get_trace (caseRun L.dictionary c).2 with _ | t
  · simp only [h]
    simp
  · simp only [h]
    have hmem : ∃ u ∈ L.trace_list, u.event_list = (caseRun L.dictionary c).2 := by
      refine ⟨t, List.mem_of_find?_eq_some h, ?_⟩
      have hp := List.find?_some h
      simpa using hp
    simpa using incFirstFreq_sum L.trace_list (caseRun L.dictionary c).2 hmem

theorem load_size (L : Log) (cases : List (List String)) :
    (L.load cases).size = L.size + cases.length := by
  induction cases generalizing L with
  | nil => rfl
  | cons c cs ih =>
    have h : L.load (c :: cs) = (L.loadCase c).load cs := rfl
    rw [h, ih, loadCase_size, List.length_cons]
    omega

/-! ### Trace-store uniqueness -/

theorem get_trace_none_iff (L : Log) (evs : List Event) :
    L.get_trace evs = none ↔ ∀ t ∈ L.trace_list, t.event_list ≠ evs := by
  rw [Log.get_trace, List.find?_eq_none]
  simp

theorem pairwise_event_list_iff (l : List Trace) :
    (l.Pairwise fun a b => a.event_list ≠ b.event_list) ↔
      ((l.map Trace.event_list).Pairwise fun a b => a ≠ b) :=
  List.pairwise_map.symm

theorem loadCase_distinct (L : Log) (c : List String)
    (h : L.trace_list.Pairwise fun a b => a.event_list ≠ b.event_list) :
    (L.loadCase c).trace_list.Pairwise fun a b => a.event_list ≠ b.event_list := by
  unfold Log.loadCase
  rcases hgt : L.get_trace (caseRun L.dictionary c).2 with _ | t
  · simp only [hgt]
    have hno := (get_trace_none_iff L (caseRun L.dictionary c).2).mp hgt
    rw [List.pairwise_append]
    refine ⟨h, List.pairwise_singleton _ _, ?_⟩
    intro a ha b hb
    simp only [List.mem_singleton] at hb
    subst hb
    exact hno a ha
  · simp only [hgt]
    rw [pairwise_event_list_iff] at h ⊢
    simpa [incFirstFreq_map_event_list] using h

theorem load_distinct (L : Log) (cases : List (List String))
    (h : L.trace_list.Pairwise fun a b => a.event_list ≠ b.event_list) :
    (L.load cases).trace_list.Pairwise fun a b => a.event_list ≠ b.event_list := by
  induction cases generalizing L with
  | nil => exact h
  | cons c cs ih =>
    have hstep : L.load (c :: cs) = (L.loadCase c).load cs := rfl
    rw [hstep]
    exact ih _ (loadCase_distinct L c h)

/-- spec-side: the first-seen order of the distinct names in a name stream. -/
def firstSeenOrder (names : List String) : List String :=
  names.foldl (fun acc n => if n ∈ acc then acc else acc ++ [n]) []

theorem load_dictionary (L : Log) (cases : List (List String)) :
    (L.load cases).dictionary = cases.foldl (fun d c => c.foldl registerName d) L.dictionary := by
  induction cases generalizing L with
  | nil => rfl
  | cons c cs ih =>
    have hstep : L.load (c :: cs) = (L.loadCase c).load cs := rfl
    rw [hstep, ih, List.foldl_cons, loadCase_dictionary, caseRun_fst]

theorem loadLog_keys (cases : List (List String)) :
    dictKeys (loadLog cases).dictionary = firstSeenOrder cases.flatten := by
  rw [loadLog, load_dictionary, ← List.foldl_flatten registerName, firstSeenOrder]
  have h := dictKeys_foldl_registerName cases.flatten []
  simpa [dictKeys] using h

theorem mem_foldl_dedup {l : List String} {n : String} :
    ∀ {acc : List String}, (n ∈ l ∨ n ∈ acc) →
      n ∈ l.foldl (fun acc m => if m ∈ acc then acc else acc ++ [m]) acc := by
  induction l with
  | nil =>
    intro acc h
    simpa using h.resolve_left (by simp)
  | cons m l ih =>
    intro acc h
    rw [List.foldl_cons]
    by_cases hm : m ∈ acc
    · rw [if_pos hm]
      rcases h with hl | hacc
      · rcases List.mem_cons.mp hl with rfl | hl'
        · exact ih (Or.inr hm)
        · exact ih (Or.inl hl')
      · exact ih (Or.inr hacc)
    · rw [if_neg hm]
      rcases h with hl | hacc
      · rcases List.mem_cons.mp hl with rfl | hl'
        · exact ih (Or.inr (by simp))
        · exact ih (Or.inl hl')
      · exact ih (Or.inr (by simp [hacc]))

theorem mem_firstSeenOrder {l : List String} {n : String} (h : n ∈ l) :
    n ∈ firstSeenOrder l :=
  mem_foldl_dedup (Or.inl h)

/-! ### Claim theorems for the Log data model -/

/-- Claim C3: for every log built by a single load pass over a sequence of
cases, `size` equals the sum of the stored frequencies, and that sum equals
the number of cases ingested. -/
theorem claim_C3 (cases : List (List String)) :
    (loadLog cases).size = ((loadLog cases).trace_list.map Trace.frequency).sum ∧
    (loadLog cases).size = cases.length := by
  refine ⟨size_eq_sum _, ?_⟩
  have h := load_size emptyLog cases
  simpa [loadLog, emptyLog, Log.size] using h

/-- Claim C4: trace-store uniqueness is a load invariant (every log reached by a
load pass has pairwise sequence-distinct stored traces — every intermediate
state is itself `loadLog` of a prefix of the case list); loading a case whose
event sequence is already stored leaves the stored sequences (hence the entry
count) unchanged instead of appending; and loading the same case twice yields
exactly one stored trace, carrying that case's event sequence, with frequency 2. -/
theorem claim_C4 :
    (∀ cases : List (List String),
      (loadLog cases).trace_list.Pairwise fun t1 t2 => t1.event_list ≠ t2.event_list) ∧
    (∀ (L : Log) (c : List String),
      (∃ t ∈ L.trace_list, t.event_list = (caseRun L.dictionary c).2) →
      (L.loadCase c).trace_list.map Trace.event_list = L.trace_list.map Trace.event_list) ∧
    (∀ c : List String,
      (loadLog [c, c]).trace_list.map (fun t => (t.event_list, t.frequency)) =
        [((caseRun [] c).2, 2)]) := by
  refine ⟨fun cases => load_distinct emptyLog cases (by simp [emptyLog]), ?_, ?_⟩
  · intro L c h
    unfold Log.loadCase
    rcases hgt : L.get_trace (caseRun L.dictionary c).2 with _ | t
    · rw [get_trace_none_iff] at hgt
      obtain ⟨t, ht, hevs⟩ := h
      exact absurd hevs (hgt t ht)
    · simp only [hgt]
      exact incFirstFreq_map_event_list _ _
  · intro c
    have h1 : emptyLog.loadCase c = ⟨(caseRun [] c).1, [⟨(caseRun [] c).2, 1⟩]⟩ := by
      unfold Log.loadCase
      rcases hgt : emptyLog.get_trace (caseRun emptyLog.dictionary c).2 with _ | t
      · rfl
      · exact absurd hgt (by simp [Log.get_trace, emptyLog])
    have hkeys : dictKeys (c.foldl registerName (caseRun [] c).1) =
        dictKeys (c.foldl registerName []) := by
      rw [caseRun_fst]
      exact foldl_registerName_keys_of_mem c _ fun n hn => mem_keys_foldl_registerName [] hn
    have hevs : (caseRun (caseRun [] c).1 c).2 = (caseRun [] c).2 :=
      caseRun_snd_stable _ [] c hkeys
    have h2 : loadLog [c, c] = (emptyLog.loadCase c).loadCase c := rfl
    rw [h2, h1]
    unfold Log.loadCase
    simp only [hevs]
    have hfind : Log.get_trace ⟨(caseRun [] c).1, [⟨(caseRun [] c).2, 1⟩]⟩ (caseRun [] c).2 =
        some ⟨(caseRun [] c).2, 1⟩ := by
      simp [Log.get_trace]
    simp only [hfind]
    simp [incFirstFreq]

/-- Witness for claim C4's hypothesis-bearing conjunct at a concrete input. -/
theorem claim_C4_witness :
    (∃ t ∈ (loadLog [["a"]]).trace_list,
        t.event_list = (caseRun (loadLog [["a"]]).dictionary ["a"]).2) ∧
    ((loadLog [["a"]]).loadCase ["a"]).trace_list.map Trace.event_list =
      (loadLog [["a"]]).trace_list.map Trace.event_list :=
  ⟨⟨⟨[⟨0, "a"⟩], 1⟩, by decide, by decide⟩,
    claim_C4.2.1 (loadLog [["a"]]) ["a"] ⟨⟨[⟨0, "a"⟩], 1⟩, by decide, by decide⟩⟩

/-- Claim C5: the key list of a loaded log is exactly the first-seen order of
the distinct names in the ingested stream, `get_event` returns the zero-based
position of the name in that order, and a registered name's code survives any
later load steps unchanged. -/
theorem claim_C5 :
    (∀ cases : List (List String),
      (loadLog cases).get_keys_list = firstSeenOrder cases.flatten) ∧
    (∀ (cases : List (List String)) (name : String), name ∈ cases.flatten →
      ∃ i, List.findIdx? (fun k => k == name) (firstSeenOrder cases.flatten) = some i ∧
        (loadLog cases).get_event name = some ⟨i, name⟩) ∧
    (∀ (L : Log) (cases : List (List String)) (name : String) (e : Event),
      L.get_event name = some e → (L.load cases).get_event name = some e) := by
  refine ⟨fun cases => loadLog_keys cases, ?_, ?_⟩
  · intro cases name hname
    obtain ⟨i, hi⟩ := findIdx?_of_mem (mem_firstSeenOrder hname)
    refine ⟨i, hi, ?_⟩
    rcases hL : loadLog cases with ⟨d, ts⟩
    have hk : dictKeys d = firstSeenOrder cases.flatten := by
      have h := loadLog_keys cases
      rw [hL] at h
      exact h
    rw [get_event_dictionary, hk, hi]
    rfl
  · intro L cases name e he
    rcases hL : L with ⟨d, ts⟩
    rw [hL] at he
    rw [get_event_dictionary] at he
    rw [Option.map_eq_some'] at he
    obtain ⟨i, hi, hei⟩ := he
    rcases hload : Log.load ⟨d, ts⟩ cases with ⟨d', ts'⟩
    have hpre : dictKeys d <+: dictKeys d' := by
      have h := load_keys_isPrefix ⟨d, ts⟩ cases
      rw [hload] at h
      exact h
    rw [get_event_dictionary, findIdx?_isPrefix_some hpre hi]
    rw [← hei]
    rfl

/-- Witness for claim C5's hypothesis-bearing conjuncts at concrete inputs. -/
theorem claim_C5_witness :
    ((loadLog [["a"]]).load [["b"], ["a"]]).get_event "a" = some ⟨0, "a"⟩ :=
  claim_C5.2.2 (loadLog [["a"]]) [["b"], ["a"]] "a" ⟨0, "a"⟩ (by decide)

/-- Claim C9: `get_event` fails exactly on unregistered names; during a load
step the name is registered first, so the combined register-then-look-up
operation always returns an Event, assigning the next sequential code (the
current table size) to an unseen name and the existing code to a seen one. -/
theorem claim_C9 :
    (∀ (L : Log) (name : String), L.get_event name = none ↔ name ∉ L.get_keys_list) ∧
    (∀ (d : List (String × Nat)) (es : List Event) (name : String),
      name ∉ dictKeys d →
      (loadEventStep (d, es) name).2 = es ++ [⟨(dictKeys d).length, name⟩]) ∧
    (∀ (d : List (String × Nat)) (es : List Event) (name : String) (e : Event),
      (Log.mk d []).get_event name = some e →
      (loadEventStep (d, es) name).2 = es ++ [e]) := by
  refine ⟨?_, ?_, ?_⟩
  · intro L name
    rcases L with ⟨d, ts⟩
    rw [get_event_dictionary, Option.map_eq_none', List.findIdx?_eq_none_iff]
    constructor
    · intro h hmem
      have := h name hmem
      simp at this
    · intro h k hk
      simp only [beq_eq_false_iff_ne, ne_eq]
      exact fun hkn => h (hkn ▸ hk)
  · intro d es name hname
    have hkeys : dictKeys (registerName d name) = dictKeys d ++ [name] := by
      rw [dictKeys_registerName, if_neg hname]
    have hidx : List.findIdx? (fun k => k == name) (dictKeys (registerName d name)) =
        some (dictKeys d).length := by
      rw [hkeys]
      exact findIdx?_concat_self hname
    unfold loadEventStep
    rw [get_event_dictionary, hidx]
    rfl
  · intro d es name e he
    have hmem : name ∈ dictKeys d := by
      by_contra hmem
      have hnone : (Log.mk d []).get_event name = none := by
        rw [get_event_dictionary, Option.map_eq_none', List.findIdx?_eq_none_iff]
        intro k hk
        simp only [beq_eq_false_iff_ne, ne_eq]
        exact fun hkn => hmem (hkn ▸ hk)
      rw [hnone] at he
      cases he
    have hkeys : dictKeys (registerName d name) = dictKeys d := by
      rw [dictKeys_registerName, if_pos hmem]
    unfold loadEventStep
    rw [get_event_dictionary, hkeys]
    rw [get_event_dictionary] at he
    rw [he]

/-- Witness for claim C9's hypothesis-bearing conjuncts at concrete inputs. -/
theorem claim_C9_witness :
    ("a" ∉ dictKeys []) ∧
    (loadEventStep ([], []) "a").2 = [] ++ [⟨(dictKeys ([] : List (String × Nat))).length, "a"⟩] :=
  ⟨by decide, claim_C9.2.1 [] [] "a" (by decide)⟩

/-! ### Prefix machinery -/

theorem nilIsPre (l : List Event) : [] <+: l := ⟨l, rfl⟩

theorem takeIsPre (n : Nat) (l : List Event) : l.take n <+: l :=
  ⟨l.drop n, List.take_append_drop n l⟩

theorem contains_pre_iff_aux :
    ∀ (pre l : List Event),
      (¬ pre.length > l.length ∧ ((pre.zip l).all fun p => decide (p.1 = p.2)) = true) ↔
        pre <+: l := by
  intro pre
  induction pre with
  | nil =>
    intro l
    simp [nilIsPre]
  | cons a pre ih =>
    intro l
    cases l with
    | nil => simp
    | cons b l =>
      rw [List.cons_prefix_cons, ← ih l]
      simp only [List.zip_cons_cons, List.all_cons, List.length_cons]
      constructor
      · rintro ⟨hlen, hall⟩
        rw [Bool.and_eq_true] at hall
        refine ⟨by simpa using hall.1, by omega, hall.2⟩
      · rintro ⟨rfl, hlen, hall⟩
        exact ⟨by omega, by simpa using hall⟩

theorem contains_pre_iff (t : Trace) (pre : List Event) :
    t.contains_pre pre = true ↔ pre <+: t.event_list := by
  rw [Trace.contains_pre]
  by_cases h : pre.length > t.length
  · simp only [h, if_true]
    rw [← contains_pre_iff_aux pre t.event_list]
    simp only [Trace.length] at h
    simp [h, Trace.length]
  · simp only [h, if_false]
    rw [← contains_pre_iff_aux pre t.event_list]
    simp only [Trace.length] at h
    simp [h, Trace.length]

theorem mem_get_all_prefixes (t : Trace) (x : List Event) :
    x ∈ t.get_all_prefixes ↔ x <+: t.event_list ∧ x ≠ t.event_list := by
  rw [Trace.get_all_prefixes]
  simp only [List.mem_map, List.mem_range]
  constructor
  · rintro ⟨i, hi, rfl⟩
    refine ⟨takeIsPre i t.event_list, fun hfull => ?_⟩
    have hlen : (t.event_list.take i).length = i := by
      rw [List.length_take]
      exact min_eq_left (le_of_lt hi)
    rw [hfull] at hlen
    simp only [Trace.length] at hi
    omega
  · rintro ⟨hpre, hne⟩
    refine ⟨x.length, ?_, ?_⟩
    · have hle := hpre.length_le
      rcases Nat.lt_or_ge x.length t.event_list.length with hlt | hge
      · simpa [Trace.length] using hlt
      · exact absurd (List.IsPrefix.eq_of_length hpre (le_antisymm hle hge)) hne
    · exact (List.prefix_iff_eq_take.mp hpre).symm

theorem mem_foldl_dedupApp {x : List Event} :
    ∀ (l : List (List Event)) (acc : List (List Event)),
      (x ∈ l.foldl (fun a p => if p ∈ a then a else a ++ [p]) acc ↔ x ∈ acc ∨ x ∈ l) := by
  intro l
  induction l with
  | nil => simp
  | cons p l ih =>
    intro acc
    rw [List.foldl_cons]
    by_cases hp : p ∈ acc
    · rw [if_pos hp, ih]
      constructor
      · rintro (h | h)
        · exact Or.inl h
        · exact Or.inr (List.mem_cons_of_mem p h)
      · rintro (h | h)
        · exact Or.inl h
        · rcases List.mem_cons.mp h with rfl | h'
          · exact Or.inl hp
          · exact Or.inr h'
    · rw [if_neg hp, ih]
      simp only [List.mem_append, List.mem_singleton, List.mem_cons]
      tauto

theorem nodup_foldl_dedupApp :
    ∀ (l : List (List Event)) (acc : List (List Event)),
      acc.Nodup → (l.foldl (fun a p => if p ∈ a then a else a ++ [p]) acc).Nodup := by
  intro l
  induction l with
  | nil => exact fun acc h => h
  | cons p l ih =>
    intro acc hacc
    rw [List.foldl_cons]
    by_cases hp : p ∈ acc
    · rw [if_pos hp]
      exact ih acc hacc
    · rw [if_neg hp]
      refine ih _ ?_
      simp [List.nodup_append, hacc, hp]

theorem mem_prefList (L : Log) (x : List Event) :
    x ∈ prefList L ↔ ∃ t ∈ L.trace_list, x ∈ t.get_all_prefixes := by
  rw [prefList]
  have key : ∀ (ts : List Trace) (acc : List (List Event)),
      x ∈ ts.foldl (fun acc t =>
          t.get_all_prefixes.foldl (fun a p => if p ∈ a then a else a ++ [p]) acc) acc ↔
        x ∈ acc ∨ ∃ t ∈ ts, x ∈ t.get_all_prefixes := by
    intro ts
    induction ts with
    | nil => simp
    | cons t ts ih =>
      intro acc
      rw [List.foldl_cons, ih, mem_foldl_dedupApp]
      simp only [List.mem_cons]
      constructor
      · rintro ((h | h) | ⟨u, hu, hx⟩)
        · exact Or.inl h
        · exact Or.inr ⟨t, Or.inl rfl, h⟩
        · exact Or.inr ⟨u, Or.inr hu, hx⟩
      · rintro (h | ⟨u, (rfl | hu), hx⟩)
        · exact Or.inl (Or.inl h)
        · exact Or.inl (Or.inr hx)
        · exact Or.inr ⟨u, hu, hx⟩
  rw [key]
  simp

theorem nodup_prefList (L : Log) : (prefList L).Nodup := by
  rw [prefList]
  have key : ∀ (ts : List Trace) (acc : List (List Event)), acc.Nodup →
      (ts.foldl (fun acc t =>
          t.get_all_prefixes.foldl (fun a p => if p ∈ a then a else a ++ [p]) acc) acc).Nodup := by
    intro ts
    induction ts with
    | nil => exact fun acc h => h
    | cons t ts ih =>
      intro acc hacc
      rw [List.foldl_cons]
      exact ih _ (nodup_foldl_dedupApp _ acc hacc)
  exact key L.trace_list [] List.nodup_nil

/-! ### Likelihood lemmas -/

theorem foldl_count (p : Trace → Bool) (l : List Trace) (n : Nat) :
    l.foldl (fun acc t => if p t then acc + 1 else acc) n = n + l.countP p := by
  induction l generalizing n with
  | nil => simp
  | cons t l ih =>
    rw [List.foldl_cons, List.countP_cons]
    by_cases h : p t <;> simp [h, ih] <;> omega

theorem likelihood_num_eq_countP (L : Log) (pre : List Event) :
    likelihood_num L pre = L.trace_list.countP fun t => decide (pre <+: t.event_list) := by
  rw [likelihood_num, foldl_count, Nat.zero_add]
  refine List.countP_congr fun t _ => ?_
  rw [Bool.eq_iff_iff]
  rw [contains_pre_iff]
  simp

/-- General fold-into-sum conversion for the entropy accumulator. -/
theorem foldl_add_eq_sum {α M : Type} [AddCommMonoid M] (f : α → M) (l : List α) (n : M) :
    l.foldl (fun acc x => acc + f x) n = n + (l.map f).sum := by
  induction l generalizing n with
  | nil => simp
  | cons a l ih => simp [ih, add_assoc]

theorem compute_my_variability_eq_sum (L : Log) :
    compute_my_variability L =
      -(((prefList L).map fun x =>
          (likelihood_estimator L x : ℝ) * Real.logb 10 (likelihood_estimator L x : ℝ)).sum) := by
  rw [compute_my_variability, foldl_add_eq_sum, zero_add]

/-! ### spec-side definitions for the prefix-entropy metric -/

/-- Modelled on the spec wording: the set of distinct proper prefixes
(including the empty one, excluding each full trace) of the stored traces. -/
def specPrefixSet (L : Log) : Finset (List Event) :=
  L.trace_list.foldr
    (fun t s => ((t.event_list.inits.filter fun x => decide (x ≠ t.event_list)).toFinset ∪ s)) ∅

/-- Modelled on the spec wording: number of unique traces starting with `x`,
over the total event count across unique traces. -/
def specLikelihood (L : Log) (x : List Event) : ℚ :=
  ((L.trace_list.countP fun t => decide (x <+: t.event_list)) : ℚ) /
    (((L.trace_list.map Trace.length).sum : ℚ))

theorem mem_specPrefixSet (L : Log) (x : List Event) :
    x ∈ specPrefixSet L ↔ ∃ t ∈ L.trace_list, x <+: t.event_list ∧ x ≠ t.event_list := by
  rw [specPrefixSet]
  induction L.trace_list with
  | nil => simp
  | cons t ts ih =>
    rw [List.foldr_cons, Finset.mem_union, ih]
    simp only [List.mem_toFinset, List.mem_filter, List.mem_inits, List.mem_cons]
    constructor
    · rintro (⟨hpre, hne⟩ | ⟨u, hu, hx⟩)
      · exact ⟨t, Or.inl rfl, hpre, by simpa using hne⟩
      · exact ⟨u, Or.inr hu, hx⟩
    · rintro ⟨u, (rfl | hu), hx⟩
      · exact Or.inl ⟨hx.1, by simpa using hx.2⟩
      · exact Or.inr ⟨u, hu, hx⟩

theorem prefList_toFinset (L : Log) : (prefList L).toFinset = specPrefixSet L := by
  ext x
  rw [List.mem_toFinset, mem_prefList, mem_specPrefixSet]
  constructor
  · rintro ⟨t, ht, hx⟩
    exact ⟨t, ht, (mem_get_all_prefixes t x).mp hx⟩
  · rintro ⟨t, ht, hx⟩
    exact ⟨t, ht, (mem_get_all_prefixes t x).mpr hx⟩

theorem likelihood_estimator_eq_spec (L : Log) (x : List Event) :
    likelihood_estimator L x = specLikelihood L x := by
  rw [likelihood_estimator, specLikelihood, likelihood_num_eq_countP, likelihood_den]

/-! ### Claim C2 and C10 -/

/-- Claim C2: `compute_my_variability` equals minus the sum, over the set of
distinct proper prefixes of the unique traces, of p(x)·log10 p(x), where p(x)
counts unique trace variants starting with x over the total event count of
unique traces.  (Proved for every log, empty or not.) -/
theorem claim_C2 (L : Log) :
    compute_my_variability L =
      -(∑ x ∈ specPrefixSet L,
          (specLikelihood L x : ℝ) * Real.logb 10 (specLikelihood L x : ℝ)) := by
  rw [compute_my_variability_eq_sum, ← prefList_toFinset,
    List.sum_toFinset _ (nodup_prefList L)]
  have hmap : (prefList L).map
      (fun x => (likelihood_estimator L x : ℝ) * Real.logb 10 (likelihood_estimator L x : ℝ)) =
      (prefList L).map
      (fun x => (specLikelihood L x : ℝ) * Real.logb 10 (specLikelihood L x : ℝ)) :=
    List.map_congr_left fun x _ => by rw [likelihood_estimator_eq_spec]
  rw [hmap]

theorem prefList_proper {L : Log} {x : List Event} (hx : x ∈ prefList L) :
    ∃ t ∈ L.trace_list, x <+: t.event_list ∧ x ≠ t.event_list := by
  obtain ⟨t, ht, hpre⟩ := (mem_prefList L x).mp hx
  rw [mem_get_all_prefixes] at hpre
  exact ⟨t, ht, hpre⟩

theorem prefList_num_pos {L : Log} {x : List Event} (hx : x ∈ prefList L) :
    1 ≤ likelihood_num L x := by
  obtain ⟨t, ht, hpre⟩ := prefList_proper hx
  rw [likelihood_num_eq_countP]
  have hc : 0 < L.trace_list.countP fun u => decide (x <+: u.event_list) := by
    rw [List.countP_pos_iff]
    exact ⟨t, ht, by simpa using hpre.1⟩
  omega

theorem prefList_den_pos {L : Log} {x : List Event} (hx : x ∈ prefList L) :
    1 ≤ likelihood_den L := by
  obtain ⟨t, ht, hpre⟩ := prefList_proper hx
  rw [likelihood_den]
  have hne : t.event_list ≠ [] := by
    intro hnil
    rcases hpre with ⟨hp, hne⟩
    rw [hnil] at hp hne
    exact hne (List.prefix_nil.mp hp)
  have h1 : 1 ≤ t.length := by
    rw [Trace.length]
    cases hel : t.event_list with
    | nil => exact absurd hel hne
    | cons a l => simp
  calc 1 ≤ t.length := h1
    _ ≤ ((L.trace_list.map Trace.length).sum) :=
      List.single_le_sum (fun a _ => Nat.zero_le a) _ (List.mem_map_of_mem Trace.length ht)

theorem prefList_of_all_nil {L : Log} (hall : ∀ t ∈ L.trace_list, t.event_list = []) :
    prefList L = [] := by
  rcases hp : prefList L with _ | ⟨x, l⟩
  · rfl
  · have hx : x ∈ prefList L := by rw [hp]; exact List.mem_cons_self x l
    obtain ⟨t, ht, hp', hne⟩ := prefList_proper hx
    rw [hall t ht] at hp' hne
    exact absurd (List.prefix_nil.mp hp') hne

/-- Claim C10: every accumulated prefix is a proper prefix of some stored
trace, so its likelihood numerator is at least 1 and the shared denominator is
at least 1 (hence no division by zero and no log of zero on any accumulated
prefix); and on a log whose store is empty or holds only empty traces the
metric returns 0. -/
theorem claim_C10 :
    (∀ (L : Log) (x : List Event), x ∈ prefList L →
      (∃ t ∈ L.trace_list, x <+: t.event_list ∧ x ≠ t.event_list) ∧
      1 ≤ likelihood_num L x ∧ 1 ≤ likelihood_den L) ∧
    (∀ L : Log, (∀ t ∈ L.trace_list, t.event_list = []) →
      compute_my_variability L = 0) := by
  constructor
  · intro L x hx
    exact ⟨prefList_proper hx, prefList_num_pos hx, prefList_den_pos hx⟩
  · intro L hall
    rw [compute_my_variability, prefList_of_all_nil hall]
    simp

/-- Witness for claim C10's hypothesis-bearing conjuncts at concrete inputs. -/
theorem claim_C10_witness :
    ([⟨0, "a"⟩] ∈ prefList (loadLog [["a", "b"]])) ∧
    1 ≤ likelihood_num (loadLog [["a", "b"]]) [⟨0, "a"⟩] ∧
    1 ≤ likelihood_den (loadLog [["a", "b"]]) ∧
    compute_my_variability emptyLog = 0 :=
  ⟨by decide, (claim_C10.1 (loadLog [["a", "b"]]) [⟨0, "a"⟩] (by decide)).2.1,
    (claim_C10.1 (loadLog [["a", "b"]]) [⟨0, "a"⟩] (by decide)).2.2,
    claim_C10.2 emptyLog (by intro t ht; cases ht)⟩

/-! ### Claim C7: sign and vanishing of the prefix entropy -/

theorem sum_nonpos_of_all {l : List ℝ} (h : ∀ x ∈ l, x ≤ 0) : l.sum ≤ 0 := by
  induction l with
  | nil => simp
  | cons a l ih =>
    rw [List.sum_cons]
    have ha := h a (List.mem_cons_self a l)
    have hl := ih fun x hx => h x (List.mem_cons_of_mem a hx)
    linarith

theorem sum_zero_of_nonpos {l : List ℝ} (h : ∀ x ∈ l, x ≤ 0) (hs : l.sum = 0) :
    ∀ x ∈ l, x = 0 := by
  induction l with
  | nil => intro x hx; cases hx
  | cons a l ih =>
    rw [List.sum_cons] at hs
    have ha := h a (List.mem_cons_self a l)
    have hl := sum_nonpos_of_all fun x hx => h x (List.mem_cons_of_mem a hx)
    have ha0 : a = 0 := by linarith
    have hs0 : l.sum = 0 := by linarith
    intro x hx
    rcases List.mem_cons.mp hx with rfl | hx'
    · exact ha0
    · exact ih (fun y hy => h y (List.mem_cons_of_mem a hy)) hs0 x hx'

theorem term_nonpos {p : ℝ} (h0 : 0 < p) (h1 : p ≤ 1) : p * Real.logb 10 p ≤ 0 := by
  have hlog : Real.logb 10 p ≤ 0 := Real.logb_nonpos (by norm_num) h0.le h1
  nlinarith

theorem term_eq_zero_iff {p : ℝ} (h0 : 0 < p) (h1 : p ≤ 1) :
    p * Real.logb 10 p = 0 ↔ p = 1 := by
  constructor
  · intro hz
    rcases mul_eq_zero.mp hz with hp | hlog
    · exact absurd hp (ne_of_gt h0)
    · rcases Real.logb_eq_zero.mp hlog with hb | hb | hb | hb | hb | hb
      · norm_num at hb
      · norm_num at hb
      · norm_num at hb
      · exact absurd hb (ne_of_gt h0)
      · exact hb
      · rw [hb] at h0; norm_num at h0
  · intro hp
    rw [hp, Real.logb_one, mul_zero]

theorem estimator_pos {L : Log} {x : List Event} (hx : x ∈ prefList L) :
    0 < likelihood_estimator L x := by
  rw [likelihood_estimator]
  have hn := prefList_num_pos hx
  have hd := prefList_den_pos hx
  apply div_pos
  · have hn' : 0 < likelihood_num L x := by omega
    exact_mod_cast hn'
  · have hd' : 0 < likelihood_den L := by omega
    exact_mod_cast hd'

theorem count_le_sum_lengths :
    ∀ l : List Trace, (∀ t ∈ l, t.event_list ≠ []) →
      l.length ≤ (l.map Trace.length).sum := by
  intro l
  induction l with
  | nil => simp
  | cons t ts ih =>
    intro h
    rw [List.map_cons, List.sum_cons, List.length_cons]
    have h1 : 1 ≤ t.length := by
      rw [Trace.length]
      cases hel : t.event_list with
      | nil => exact absurd hel (h t (List.mem_cons_self t ts))
      | cons a l => simp
    have h2 := ih fun u hu => h u (List.mem_cons_of_mem t hu)
    omega

theorem num_le_den {L : Log} (h : ∀ t ∈ L.trace_list, t.event_list ≠ [])
    (x : List Event) : likelihood_num L x ≤ likelihood_den L := by
  have hnum : likelihood_num L x ≤ L.trace_list.length := by
    rw [likelihood_num_eq_countP]
    exact List.countP_le_length _
  have hden := count_le_sum_lengths L.trace_list h
  rw [likelihood_den]
  omega

theorem estimator_le_one {L : Log} {x : List Event}
    (h : ∀ t ∈ L.trace_list, t.event_list ≠ []) (hx : x ∈ prefList L) :
    likelihood_estimator L x ≤ 1 := by
  rw [likelihood_estimator]
  have hd := prefList_den_pos hx
  have hd' : (0:ℚ) < (likelihood_den L : ℚ) := by
    have hd0 : 0 < likelihood_den L := by omega
    exact_mod_cast hd0
  rw [div_le_one hd']
  exact_mod_cast num_le_den h x

theorem nil_mem_prefList {L : Log} (hP : prefList L ≠ []) : [] ∈ prefList L := by
  have hex : ∃ x, x ∈ prefList L := by
    rcases hp : prefList L with _ | ⟨x, l⟩
    · exact absurd hp hP
    · exact ⟨x, List.mem_cons_self x l⟩
  obtain ⟨x, hx⟩ := hex
  obtain ⟨t, ht, hpre, hne⟩ := prefList_proper hx
  have htne : t.event_list ≠ [] := by
    intro hnil
    rw [hnil] at hpre hne
    exact hne (List.prefix_nil.mp hpre)
  rw [mem_prefList]
  refine ⟨t, ht, ?_⟩
  rw [mem_get_all_prefixes]
  exact ⟨nilIsPre _, fun hfull => htne hfull.symm⟩

theorem length_le_one_of_nodup_all_nil {l : List (List Event)} (hnd : l.Nodup)
    (hall : ∀ x ∈ l, x = ([] : List Event)) : l.length ≤ 1 := by
  match l with
  | [] => simp
  | [a] => simp
  | a :: b :: r =>
    exfalso
    have ha : a = [] := hall a (by simp)
    have hb : b = [] := hall b (by simp)
    rw [List.nodup_cons] at hnd
    exact hnd.1 (by rw [ha, hb]; simp)

theorem num_nil (L : Log) : likelihood_num L [] = L.trace_list.length := by
  rw [likelihood_num_eq_countP]
  refine List.countP_eq_length.mpr fun t _ => ?_
  simp [nilIsPre]

theorem sum_lengths_all_one :
    ∀ l : List Trace, (∀ t ∈ l, t.length = 1) → (l.map Trace.length).sum = l.length := by
  intro l
  induction l with
  | nil => simp
  | cons t ts ih =>
    intro h
    rw [List.map_cons, List.sum_cons, List.length_cons,
      h t (List.mem_cons_self t ts), ih fun u hu => h u (List.mem_cons_of_mem t hu)]
    omega

theorem all_len_one_of_sum_eq :
    ∀ l : List Trace, (∀ t ∈ l, t.event_list ≠ []) →
      (l.map Trace.length).sum = l.length → ∀ t ∈ l, t.length = 1 := by
  intro l
  induction l with
  | nil => intro _ _ t ht; cases ht
  | cons t ts ih =>
    intro h hsum u hu
    rw [List.map_cons, List.sum_cons, List.length_cons] at hsum
    have h1 : 1 ≤ t.length := by
      rw [Trace.length]
      cases hel : t.event_list with
      | nil => exact absurd hel (h t (List.mem_cons_self t ts))
      | cons a l => simp
    have h2 := count_le_sum_lengths ts fun u hu => h u (List.mem_cons_of_mem t hu)
    rcases List.mem_cons.mp hu with rfl | hu'
    · omega
    · exact ih (fun v hv => h v (List.mem_cons_of_mem t hv)) (by omega) u hu'

theorem proper_of_len_one {t : Trace} {x : List Event} (hlen : t.length = 1)
    (hpre : x <+: t.event_list) (hne : x ≠ t.event_list) : x = [] := by
  have hle := hpre.length_le
  rw [Trace.length] at hlen
  rcases Nat.lt_or_ge x.length t.event_list.length with hlt | hge
  · have : x.length = 0 := by omega
    exact List.length_eq_zero.mp this
  · exact absurd (List.IsPrefix.eq_of_length hpre (by omega)) hne

/-- Counterexample to claim C7 as stated: load a log holding an empty trace and
a length-one trace; the only accumulated prefix is the empty one, its
likelihood is 2 (two variants start with it, one total event), so the
entropy is -2·log10(2) < 0. -/
theorem claim_C7_counterexample :
    compute_my_variability (loadLog [[], ["a"]]) < 0 := by
  have h1 : prefList (loadLog [[], ["a"]]) = [[]] := by decide
  have h2 : likelihood_num (loadLog [[], ["a"]]) [] = 2 := by decide
  have h3 : likelihood_den (loadLog [[], ["a"]]) = 1 := by decide
  have hest : likelihood_estimator (loadLog [[], ["a"]]) [] = 2 := by
    rw [likelihood_estimator, h2, h3]
    norm_num
  rw [compute_my_variability, h1]
  simp only [List.foldl_cons, List.foldl_nil, hest]
  have hlog : (0:ℝ) < Real.logb 10 2 := Real.logb_pos (by norm_num) (by norm_num)
  push_cast
  nlinarith

/-- Claim C7 (amended): on every log all of whose stored traces are nonempty,
the prefix entropy is non-negative, and it vanishes exactly when at most one
distinct accumulated prefix has nonzero likelihood. -/
theorem claim_C7 (L : Log) (h : ∀ t ∈ L.trace_list, t.event_list ≠ []) :
    0 ≤ compute_my_variability L ∧
    (compute_my_variability L = 0 ↔
      ((prefList L).filter fun x => decide (likelihood_estimator L x ≠ 0)).length ≤ 1) := by
  have hbounds : ∀ x ∈ prefList L,
      0 < likelihood_estimator L x ∧ likelihood_estimator L x ≤ 1 :=
    fun x hx => ⟨estimator_pos hx, estimator_le_one h hx⟩
  have hterm : ∀ y ∈ (prefList L).map
      (fun x => (likelihood_estimator L x : ℝ) * Real.logb 10 (likelihood_estimator L x : ℝ)),
      y ≤ 0 := by
    intro y hy
    obtain ⟨x, hx, rfl⟩ := List.mem_map.mp hy
    obtain ⟨h0, h1⟩ := hbounds x hx
    exact term_nonpos (by exact_mod_cast h0) (by exact_mod_cast h1)
  have hsum := sum_nonpos_of_all hterm
  rw [compute_my_variability_eq_sum]
  refine ⟨by linarith, ?_, ?_⟩
  · intro hzero
    have hs0 : ((prefList L).map
        (fun x => (likelihood_estimator L x : ℝ) *
          Real.logb 10 (likelihood_estimator L x : ℝ))).sum = 0 := by linarith
    have hall1 : ∀ x ∈ prefList L, likelihood_estimator L x = 1 := by
      intro x hx
      obtain ⟨h0, h1⟩ := hbounds x hx
      have hterm0 := sum_zero_of_nonpos hterm hs0 _
        (List.mem_map_of_mem (fun x => (likelihood_estimator L x : ℝ) *
          Real.logb 10 (likelihood_estimator L x : ℝ)) hx)
      have hone : (likelihood_estimator L x : ℝ) = 1 :=
        (term_eq_zero_iff (by exact_mod_cast h0) (by exact_mod_cast h1)).mp hterm0
      exact_mod_cast hone
    by_cases hPe : prefList L = []
    · rw [hPe]
      simp
    · have hnil := nil_mem_prefList hPe
      have hest1 := hall1 [] hnil
      have hd := prefList_den_pos hnil
      have hnumden : likelihood_num L [] = likelihood_den L := by
        rw [likelihood_estimator] at hest1
        have hd' : (likelihood_den L : ℚ) ≠ 0 := by
          have hd0 : 0 < likelihood_den L := by omega
          exact_mod_cast Nat.pos_iff_ne_zero.mp hd0
        field_simp at hest1
        exact_mod_cast hest1
      have hlen : ∀ t ∈ L.trace_list, t.length = 1 := by
        apply all_len_one_of_sum_eq L.trace_list h
        have hnn := num_nil L
        rw [likelihood_den] at hnumden
        omega
      have hallnil : ∀ x ∈ prefList L, x = ([] : List Event) := by
        intro x hx
        obtain ⟨t, ht, hpre, hne⟩ := prefList_proper hx
        exact proper_of_len_one (hlen t ht) hpre hne
      calc ((prefList L).filter fun x => decide (likelihood_estimator L x ≠ 0)).length
          ≤ (prefList L).length := List.length_filter_le _ _
        _ ≤ 1 := length_le_one_of_nodup_all_nil (nodup_prefList L) hallnil
  · intro hfil
    have hfeq : ((prefList L).filter fun x => decide (likelihood_estimator L x ≠ 0)) =
        prefList L := by
      apply List.filter_eq_self.mpr
      intro x hx
      exact decide_eq_true (ne_of_gt (estimator_pos hx))
    rw [hfeq] at hfil
    by_cases hPe : prefList L = []
    · rw [hPe]
      simp
    · have hnil := nil_mem_prefList hPe
      have hlen1 : (prefList L).length = 1 := by
        have hpos : 0 < (prefList L).length := List.length_pos.mpr hPe
        omega
      obtain ⟨x0, hp⟩ := List.length_eq_one.mp hlen1
      have hx0 : x0 = [] := by
        rw [hp] at hnil
        have hmem := List.mem_singleton.mp hnil
        exact hmem.symm
      rw [hx0] at hp
      have hlen : ∀ t ∈ L.trace_list, t.length = 1 := by
        intro t ht
        have htne := h t ht
        have h1 : 1 ≤ t.length := by
          rw [Trace.length]
          cases hel : t.event_list with
          | nil => exact absurd hel htne
          | cons a l => simp
        by_contra hne1
        have h2 : 2 ≤ t.length := by omega
        have htake : t.event_list.take 1 ∈ prefList L := by
          rw [mem_prefList]
          refine ⟨t, ht, ?_⟩
          rw [Trace.get_all_prefixes]
          exact List.mem_map_of_mem _ (List.mem_range.mpr (by omega))
        rw [hp] at htake
        have : t.event_list.take 1 = [] := by simpa using htake
        have hl1 : (t.event_list.take 1).length = 1 := by
          rw [List.length_take]
          rw [Trace.length] at h2
          omega
        rw [this] at hl1
        simp at hl1
      have hstore : L.trace_list ≠ [] := by
        obtain ⟨t, ht, _⟩ := prefList_proper hnil
        intro hempty
        rw [hempty] at ht
        cases ht
      have hest1 : likelihood_estimator L [] = 1 := by
        rw [likelihood_estimator, num_nil, likelihood_den, sum_lengths_all_one _ hlen]
        have hpos : 0 < L.trace_list.length := List.length_pos.mpr hstore
        have hne0 : (L.trace_list.length : ℚ) ≠ 0 := by
          exact_mod_cast Nat.pos_iff_ne_zero.mp hpos
        field_simp
      rw [hp]
      simp only [List.map_cons, List.map_nil, List.sum_cons, List.sum_nil, hest1]
      push_cast
      rw [Real.logb_one]
      ring

/-- Witness for claim C7 (amended) at a concrete input. -/
theorem claim_C7_witness :
    0 ≤ compute_my_variability (loadLog [["a"]]) ∧
    (compute_my_variability (loadLog [["a"]]) = 0 ↔
      ((prefList (loadLog [["a"]])).filter fun x =>
        decide (likelihood_estimator (loadLog [["a"]]) x ≠ 0)).length ≤ 1) :=
  claim_C7 (loadLog [["a"]]) (by decide)

/-! ### Recursive Levenshtein: basic equations and one-edit bounds -/

theorem levRec_nil_left (ys : List Event) : levRec [] ys = ys.length := by
  simp [levRec]

theorem levRec_nil_right (xs : List Event) : levRec xs [] = xs.length := by
  cases xs <;> simp [levRec]

theorem levRec_cons_cons (x y : Event) (xs ys : List Event) :
    levRec (x :: xs) (y :: ys) =
      if x = y then levRec xs ys
      else 1 + min (levRec xs ys) (min (levRec xs (y :: ys)) (levRec (x :: xs) ys)) := by
  simp [levRec]

theorem levRec_self (xs : List Event) : levRec xs xs = 0 := by
  induction xs with
  | nil => simp [levRec]
  | cons x xs ih => simp [levRec_cons_cons, ih]

theorem levRec_symm_aux :
    ∀ (n : Nat) (xs ys : List Event), xs.length + ys.length ≤ n →
      levRec xs ys = levRec ys xs := by
  intro n
  induction n with
  | zero =>
    intro xs ys h
    have hx : xs = [] := List.length_eq_zero.mp (by omega)
    have hy : ys = [] := List.length_eq_zero.mp (by omega)
    rw [hx, hy]
  | succ n ih =>
    intro xs ys h
    cases xs with
    | nil => rw [levRec_nil_left, levRec_nil_right]
    | cons x xs =>
      cases ys with
      | nil => rw [levRec_nil_left, levRec_nil_right]
      | cons y ys =>
        simp only [List.length_cons] at h
        rw [levRec_cons_cons, levRec_cons_cons]
        by_cases hxy : x = y
        · rw [if_pos hxy, if_pos hxy.symm, ih xs ys (by omega)]
        · rw [if_neg hxy, if_neg (fun hyx => hxy hyx.symm)]

          rw [ih xs ys (by omega), ih xs (y :: ys) (by simp; omega),
            ih (x :: xs) ys (by simp; omega)]
          omega

theorem levRec_symm (xs ys : List Event) : levRec xs ys = levRec ys xs :=
  levRec_symm_aux (xs.length + ys.length) xs ys le_rfl

/-- The four one-edit bounds on the recursive Levenshtein distance, proved
simultaneously by strong induction on the total length. -/
theorem levRec_ops :
    ∀ (n : Nat) (xs ys : List Event), xs.length + ys.length ≤ n →
      (∀ a, levRec (a :: xs) ys ≤ 1 + levRec xs ys) ∧
      (∀ b, levRec xs (b :: ys) ≤ 1 + levRec xs ys) ∧
      (∀ a, levRec xs ys ≤ 1 + levRec (a :: xs) ys) ∧
      (∀ b, levRec xs ys ≤ 1 + levRec xs (b :: ys)) := by
  intro n
  induction n with
  | zero =>
    intro xs ys h
    have hx : xs = [] := List.length_eq_zero.mp (by omega)
    have hy : ys = [] := List.length_eq_zero.mp (by omega)
    subst hx hy
    refine ⟨fun a => ?_, fun b => ?_, fun a => ?_, fun b => ?_⟩ <;>
      simp [levRec_nil_left, levRec_nil_right]
  | succ n ih =>
    intro xs ys h
    refine ⟨fun a => ?_, fun b => ?_, fun a => ?_, fun b => ?_⟩
    · -- levRec (a :: xs) ys ≤ 1 + levRec xs ys
      cases ys with
      | nil => rw [levRec_nil_right, levRec_nil_right]; simp; omega
      | cons c ys' =>
        simp only [List.length_cons] at h
        rw [levRec_cons_cons]
        by_cases hac : a = c
        · rw [if_pos hac]
          have h4 := (ih xs ys' (by omega)).2.2.2 c
          omega
        · rw [if_neg hac]
          omega
    · -- levRec xs (b :: ys) ≤ 1 + levRec xs ys
      cases xs with
      | nil => rw [levRec_nil_left, levRec_nil_left]; simp; omega
      | cons c xs' =>
        simp only [List.length_cons] at h
        rw [levRec_cons_cons]
        by_cases hcb : c = b
        · rw [if_pos hcb]
          have h3 := (ih xs' ys (by omega)).2.2.1 c
          omega
        · rw [if_neg hcb]
          omega
    · -- levRec xs ys ≤ 1 + levRec (a :: xs) ys
      cases ys with
      | nil => rw [levRec_nil_right, levRec_nil_right]; simp; omega
      | cons c ys' =>
        simp only [List.length_cons] at h
        rw [levRec_cons_cons]
        by_cases hac : a = c
        · rw [if_pos hac]
          subst hac
          have h2 := (ih xs ys' (by omega)).2.1 a
          omega
        · rw [if_neg hac]
          have h2 := (ih xs ys' (by omega)).2.1 c
          have h3 := (ih xs ys' (by omega)).2.2.1 a
          omega
    · -- levRec xs ys ≤ 1 + levRec xs (b :: ys)
      cases xs with
      | nil => rw [levRec_nil_left, levRec_nil_left]; simp; omega
      | cons c xs' =>
        simp only [List.length_cons] at h
        rw [levRec_cons_cons]
        by_cases hcb : c = b
        · rw [if_pos hcb]
          subst hcb
          have h1 := (ih xs' ys (by omega)).1 c
          omega
        · rw [if_neg hcb]
          have h1 := (ih xs' ys (by omega)).1 c
          have h4 := (ih xs' ys (by omega)).2.2.2 b
          omega

theorem levRec_le_cons_left (a : Event) (xs ys : List Event) :
    levRec (a :: xs) ys ≤ 1 + levRec xs ys :=
  (levRec_ops (xs.length + ys.length) xs ys le_rfl).1 a

theorem levRec_le_cons_right (b : Event) (xs ys : List Event) :
    levRec xs (b :: ys) ≤ 1 + levRec xs ys :=
  (levRec_ops (xs.length + ys.length) xs ys le_rfl).2.1 b

/-! ### Alignments: edit scripts witnessing an upper bound on the distance -/

/-- `Align xs ys n`: `ys` is reachable from `xs` with `n` single-symbol edits
(insertion, deletion, substitution; matching equal heads is free). -/
inductive Align : List Event → List Event → Nat → Prop
  | nil : Align [] [] 0
  | ins {xs ys n} (b : Event) : Align xs ys n → Align xs (b :: ys) (n + 1)
  | del {xs ys n} (a : Event) : Align xs ys n → Align (a :: xs) ys (n + 1)
  | eq {xs ys n} (a : Event) : Align xs ys n → Align (a :: xs) (a :: ys) n
  | sub {xs ys n} (a b : Event) : Align xs ys n → Align (a :: xs) (b :: ys) (n + 1)

theorem levRec_le_of_align {xs ys : List Event} {n : Nat} (h : Align xs ys n) :
    levRec xs ys ≤ n := by
  induction h with
  | nil => simp [levRec]
  | @ins x1 y1 n1 b h ih =>
    have hb := levRec_le_cons_right b x1 y1
    omega
  | @del x1 y1 n1 a h ih =>
    have ha := levRec_le_cons_left a x1 y1
    omega
  | eq a h ih =>
    rw [levRec_cons_cons, if_pos rfl]
    exact ih
  | sub a b h ih =>
    rw [levRec_cons_cons]
    by_cases hab : a = b
    · rw [if_pos hab]
      omega
    · rw [if_neg hab]
      omega

theorem align_levRec : ∀ (n : Nat) (xs ys : List Event), xs.length + ys.length ≤ n →
    Align xs ys (levRec xs ys) := by
  intro n
  induction n with
  | zero =>
    intro xs ys h
    have hx : xs = [] := List.length_eq_zero.mp (by omega)
    have hy : ys = [] := List.length_eq_zero.mp (by omega)
    subst hx hy
    have h0 : levRec [] [] = 0 := by simp [levRec]
    rw [h0]
    exact Align.nil
  | succ n ih =>
    intro xs ys h
    cases xs with
    | nil =>
      cases ys with
      | nil =>
        have h0 : levRec [] [] = 0 := by simp [levRec]
        rw [h0]
        exact Align.nil
      | cons y ys' =>
        rw [levRec_nil_left, List.length_cons]
        have hal := ih [] ys' (by simp at h ⊢; omega)
        rw [levRec_nil_left] at hal
        exact Align.ins y hal
    | cons x xs' =>
      cases ys with
      | nil =>
        rw [levRec_nil_right, List.length_cons]
        have hal := ih xs' [] (by simp at h ⊢; omega)
        rw [levRec_nil_right] at hal
        exact Align.del x hal
      | cons y ys' =>
        simp only [List.length_cons] at h
        rw [levRec_cons_cons]
        by_cases hxy : x = y
        · rw [if_pos hxy]
          subst hxy
          exact Align.eq x (ih xs' ys' (by omega))
        · rw [if_neg hxy]
          rcases le_total (levRec xs' ys') (min (levRec xs' (y :: ys')) (levRec (x :: xs') ys'))
            with hA | hBC
          · rw [min_eq_left hA, Nat.add_comm]
            exact Align.sub x y (ih xs' ys' (by omega))
          · rw [min_eq_right hBC]
            rcases le_total (levRec xs' (y :: ys')) (levRec (x :: xs') ys') with hB | hC
            · rw [min_eq_left hB, Nat.add_comm]
              exact Align.del x (ih xs' (y :: ys') (by simp; omega))
            · rw [min_eq_right hC, Nat.add_comm]
              exact Align.ins y (ih (x :: xs') ys' (by simp; omega))

/-- Composition of alignments, with total length as the induction measure. -/
theorem align_comp :
    ∀ (N : Nat) (xs ys zs : List Event) (m n : Nat),
      xs.length + ys.length + zs.length ≤ N →
      Align xs ys m → Align ys zs n → ∃ k, k ≤ m + n ∧ Align xs zs k := by
  intro N
  induction N with
  | zero =>
    intro xs ys zs m n hlen d1 d2
    have hx : xs = [] := List.length_eq_zero.mp (by omega)
    have hz : zs = [] := List.length_eq_zero.mp (by omega)
    subst hx hz
    exact ⟨0, Nat.zero_le _, Align.nil⟩
  | succ N ih =>
    intro xs ys zs m n hlen d1 d2
    cases d1 with
    | nil => exact ⟨n, by omega, d2⟩
    | @ins xs ys₁ m₁ b d1' =>
      cases d2 with
      | @ins _ zs₁ n₁ c d2' =>
        obtain ⟨k, hk, hal⟩ := ih xs (b :: ys₁) zs₁ (m₁ + 1) n₁
          (by simp at hlen ⊢; omega) (Align.ins b d1') d2'
        exact ⟨k + 1, by omega, Align.ins c hal⟩
      | @del _ _ n₁ _ d2' =>
        obtain ⟨k, hk, hal⟩ := ih xs ys₁ zs m₁ n₁ (by simp at hlen ⊢; omega) d1' d2'
        exact ⟨k, by omega, hal⟩
      | @eq _ zs₁ _ _ d2' =>
        obtain ⟨k, hk, hal⟩ := ih xs ys₁ zs₁ m₁ n (by simp at hlen ⊢; omega) d1' d2'
        exact ⟨k + 1, by omega, Align.ins b hal⟩
      | @sub _ zs₁ n₁ _ c d2' =>
        obtain ⟨k, hk, hal⟩ := ih xs ys₁ zs₁ m₁ n₁ (by simp at hlen ⊢; omega) d1' d2'
        exact ⟨k + 1, by omega, Align.ins c hal⟩
    | @del xs₁ ys m₁ a d1' =>
      obtain ⟨k, hk, hal⟩ := ih xs₁ ys zs m₁ n (by simp at hlen ⊢; omega) d1' d2
      exact ⟨k + 1, by omega, Align.del a hal⟩
    | @eq xs₁ ys₁ _ a d1' =>
      cases d2 with
      | @ins _ zs₁ n₁ c d2' =>
        obtain ⟨k, hk, hal⟩ := ih (a :: xs₁) (a :: ys₁) zs₁ m n₁
          (by simp at hlen ⊢; omega) (Align.eq a d1') d2'
        exact ⟨k + 1, by omega, Align.ins c hal⟩
      | @del _ _ n₁ _ d2' =>
        obtain ⟨k, hk, hal⟩ := ih xs₁ ys₁ zs m n₁ (by simp at hlen ⊢; omega) d1' d2'
        exact ⟨k + 1, by omega, Align.del a hal⟩
      | @eq _ zs₁ _ _ d2' =>
        obtain ⟨k, hk, hal⟩ := ih xs₁ ys₁ zs₁ m n (by simp at hlen ⊢; omega) d1' d2'
        exact ⟨k, by omega, Align.eq a hal⟩
      | @sub _ zs₁ n₁ _ c d2' =>
        obtain ⟨k, hk, hal⟩ := ih xs₁ ys₁ zs₁ m n₁ (by simp at hlen ⊢; omega) d1' d2'
        exact ⟨k + 1, by omega, Align.sub a c hal⟩
    | @sub xs₁ ys₁ m₁ a b d1' =>
      cases d2 with
      | @ins _ zs₁ n₁ c d2' =>
        obtain ⟨k, hk, hal⟩ := ih (a :: xs₁) (b :: ys₁) zs₁ (m₁ + 1) n₁
          (by simp at hlen ⊢; omega) (Align.sub a b d1') d2'
        exact ⟨k + 1, by omega, Align.ins c hal⟩
      | @del _ _ n₁ _ d2' =>
        obtain ⟨k, hk, hal⟩ := ih xs₁ ys₁ zs m₁ n₁ (by simp at hlen ⊢; omega) d1' d2'
        exact ⟨k + 1, by omega, Align.del a hal⟩
      | @eq _ zs₁ _ _ d2' =>
        obtain ⟨k, hk, hal⟩ := ih xs₁ ys₁ zs₁ m₁ n (by simp at hlen ⊢; omega) d1' d2'
        exact ⟨k + 1, by omega, Align.sub a b hal⟩
      | @sub _ zs₁ n₁ _ c d2' =>
        obtain ⟨k, hk, hal⟩ := ih xs₁ ys₁ zs₁ m₁ n₁ (by simp at hlen ⊢; omega) d1' d2'
        exact ⟨k + 1, by omega, Align.sub a c hal⟩

theorem levRec_triangle (xs ys zs : List Event) :
    levRec xs zs ≤ levRec xs ys + levRec ys zs := by
  obtain ⟨k, hk, hal⟩ := align_comp (xs.length + ys.length + zs.length) xs ys zs
    (levRec xs ys) (levRec ys zs) le_rfl
    (align_levRec (xs.length + ys.length) xs ys le_rfl)
    (align_levRec (ys.length + zs.length) ys zs le_rfl)
  exact le_trans (levRec_le_of_align hal) hk

/-! ### Reversal invariance and the snoc recurrence -/

theorem align_snoc_ins {u v : List Event} {n : Nat} (b : Event) (h : Align u v n) :
    Align u (v ++ [b]) (n + 1) := by
  induction h with
  | nil => exact Align.ins b Align.nil
  | ins c h ih => exact Align.ins c ih
  | del a h ih => exact Align.del a ih
  | eq a h ih => exact Align.eq a ih
  | sub a c h ih => exact Align.sub a c ih

theorem align_snoc_del {u v : List Event} {n : Nat} (a : Event) (h : Align u v n) :
    Align (u ++ [a]) v (n + 1) := by
  induction h with
  | nil => exact Align.del a Align.nil
  | ins c h ih => exact Align.ins c ih
  | del c h ih => exact Align.del c ih
  | eq c h ih => exact Align.eq c ih
  | sub c d h ih => exact Align.sub c d ih

theorem align_snoc_eq {u v : List Event} {n : Nat} (a : Event) (h : Align u v n) :
    Align (u ++ [a]) (v ++ [a]) n := by
  induction h with
  | nil => exact Align.eq a Align.nil
  | ins c h ih => exact Align.ins c ih
  | del c h ih => exact Align.del c ih
  | eq c h ih => exact Align.eq c ih
  | sub c d h ih => exact Align.sub c d ih

theorem align_snoc_sub {u v : List Event} {n : Nat} (a b : Event) (h : Align u v n) :
    Align (u ++ [a]) (v ++ [b]) (n + 1) := by
  induction h with
  | nil => exact Align.sub a b Align.nil
  | ins c h ih => exact Align.ins c ih
  | del c h ih => exact Align.del c ih
  | eq c h ih => exact Align.eq c ih
  | sub c d h ih => exact Align.sub c d ih

theorem align_reverse {u v : List Event} {n : Nat} (h : Align u v n) :
    Align u.reverse v.reverse n := by
  induction h with
  | nil => exact Align.nil
  | ins b h ih =>
    rw [List.reverse_cons]
    exact align_snoc_ins b ih
  | del a h ih =>
    rw [List.reverse_cons]
    exact align_snoc_del a ih
  | eq a h ih =>
    rw [List.reverse_cons, List.reverse_cons]
    exact align_snoc_eq a ih
  | sub a b h ih =>
    rw [List.reverse_cons, List.reverse_cons]
    exact align_snoc_sub a b ih

theorem levRec_reverse (u v : List Event) :
    levRec u.reverse v.reverse = levRec u v := by
  have h1 : levRec u.reverse v.reverse ≤ levRec u v :=
    levRec_le_of_align (align_reverse (align_levRec (u.length + v.length) u v le_rfl))
  have h2 : levRec u v ≤ levRec u.reverse v.reverse := by
    have h := levRec_le_of_align (align_reverse
      (align_levRec (u.reverse.length + v.reverse.length) u.reverse v.reverse le_rfl))
    simpa using h
  omega

/-- The Levenshtein recurrence also holds at the right ends of the lists. -/
theorem levRec_snoc_snoc (u v : List Event) (a b : Event) :
    levRec (u ++ [a]) (v ++ [b]) =
      if a = b then levRec u v
      else 1 + min (levRec u v) (min (levRec u (v ++ [b])) (levRec (u ++ [a]) v)) := by
  have h1 : levRec (u ++ [a]) (v ++ [b]) =
      levRec (a :: u.reverse) (b :: v.reverse) := by
    rw [← levRec_reverse (u ++ [a]) (v ++ [b])]
    simp
  rw [h1, levRec_cons_cons]
  have e1 : levRec u.reverse v.reverse = levRec u v := levRec_reverse u v
  have e2 : levRec u.reverse (b :: v.reverse) = levRec u (v ++ [b]) := by
    rw [← levRec_reverse u (v ++ [b])]
    simp
  have e3 : levRec (a :: u.reverse) v.reverse = levRec (u ++ [a]) v := by
    rw [← levRec_reverse (u ++ [a]) v]
    simp
  rw [e1, e2, e3]

/-! ### Correctness of the rolling-row implementation -/

/-- The prefix points visited by a row walk: pre, pre++[c0], ..., pre++rest. -/
def initsSeg (pre : List Event) : List Event → List (List Event)
  | [] => [pre]
  | c :: rest => pre :: initsSeg (pre ++ [c]) rest

theorem initsSeg_head (pre : List Event) (l : List Event) :
    initsSeg pre l = pre :: (initsSeg pre l).tail := by
  cases l <;> rfl

theorem rowAux_spec (c2 : Event) (y : List Event) :
    ∀ (rest pre : List Event),
      rowAux c2 rest ((initsSeg pre rest).map fun s => levRec s y)
          (levRec pre (y ++ [c2])) =
        ((initsSeg pre rest).map fun s => levRec s (y ++ [c2])).tail := by
  intro rest
  induction rest with
  | nil =>
    intro pre
    simp [initsSeg, rowAux]
  | cons c1 rest ih =>
    intro pre
    obtain ⟨tl, htl⟩ : ∃ tl, initsSeg (pre ++ [c1]) rest = (pre ++ [c1]) :: tl :=
      ⟨(initsSeg (pre ++ [c1]) rest).tail, initsSeg_head _ _⟩
    have hseg : initsSeg pre (c1 :: rest) = pre :: (pre ++ [c1]) :: tl := by
      simp only [initsSeg, htl]
    rw [hseg]
    simp only [List.map_cons, List.tail_cons]
    simp only [rowAux]
    have hv : (if c1 = c2 then levRec pre y
        else 1 + min (levRec pre y)
          (min (levRec (pre ++ [c1]) y) (levRec pre (y ++ [c2])))) =
        levRec (pre ++ [c1]) (y ++ [c2]) := by
      rw [levRec_snoc_snoc]
      by_cases h : c1 = c2
      · rw [if_pos h, if_pos h]
      · rw [if_neg h, if_neg h]
        omega
    rw [hv]
    have hrec := ih (pre ++ [c1])
    rw [htl] at hrec
    simp only [List.map_cons, List.tail_cons] at hrec
    rw [hrec]

theorem row_update (t1 y : List Event) (c2 : Event) :
    (y.length + 1) :: rowAux c2 t1 ((initsSeg [] t1).map fun s => levRec s y)
        (y.length + 1) =
      (initsSeg [] t1).map fun s => levRec s (y ++ [c2]) := by
  obtain ⟨tl, htl⟩ : ∃ tl, initsSeg ([] : List Event) t1 = [] :: tl :=
    ⟨(initsSeg [] t1).tail, initsSeg_head _ _⟩
  have hlast : y.length + 1 = levRec [] (y ++ [c2]) := by
    rw [levRec_nil_left]
    simp
  rw [hlast, rowAux_spec c2 y t1 []]
  rw [htl]
  simp only [List.map_cons, List.tail_cons]

theorem rows_fold (t1 : List Event) :
    ∀ (rest y : List Event),
      (List.enumFrom y.length rest).foldl
        (fun distances p => (p.1 + 1) :: rowAux p.2 t1 distances (p.1 + 1))
        ((initsSeg [] t1).map fun s => levRec s y) =
      (initsSeg [] t1).map fun s => levRec s (y ++ rest) := by
  intro rest
  induction rest with
  | nil =>
    intro y
    simp
  | cons c rest ih =>
    intro y
    rw [List.enumFrom_cons, List.foldl_cons]
    dsimp only
    rw [row_update t1 y c]
    have hrec := ih (y ++ [c])
    rw [List.length_append, List.length_singleton] at hrec
    rw [hrec, List.append_assoc]
    rfl

theorem initsSeg_map_getLastD (f : List Event → Nat) :
    ∀ (l pre : List Event) (d : Nat),
      ((initsSeg pre l).map f).getLastD d = f (pre ++ l) := by
  intro l
  induction l with
  | nil =>
    intro pre d
    simp [initsSeg]
  | cons c rest ih =>
    intro pre d
    simp only [initsSeg, List.map_cons, List.getLastD_cons]
    rw [ih (pre ++ [c]) (f pre), List.append_assoc]
    rfl

theorem initsSeg_map_len :
    ∀ (l pre : List Event),
      (initsSeg pre l).map (fun s => levRec s []) =
        (List.range (l.length + 1)).map (fun i => pre.length + i) := by
  intro l
  induction l with
  | nil =>
    intro pre
    simp [initsSeg, levRec_nil_right, List.range_succ, List.range_zero]
  | cons c rest ih =>
    intro pre
    have ih' := ih (pre ++ [c])
    simp only [levRec_nil_right] at ih'
    simp only [initsSeg, List.map_cons, levRec_nil_right, List.length_cons]
    rw [ih']
    rw [List.range_succ_eq_map (rest.length + 1)]
    simp only [List.map_cons, List.map_map, List.length_append, List.length_singleton]
    refine List.cons_eq_cons.mpr ⟨by simp, ?_⟩
    exact List.map_congr_left fun i _ => by simp [Function.comp]; omega

theorem levCore_eq (t1 t2 : List Event) : levCore t1 t2 = levRec t1 t2 := by
  rw [levCore]
  have hinit : ((initsSeg [] t1).map fun s => levRec s []) =
      List.range (t1.length + 1) := by
    rw [initsSeg_map_len t1 []]
    simp
  have henum : t2.enum = List.enumFrom 0 t2 := rfl
  rw [← hinit, henum]
  have hf := rows_fold t1 t2 []
  simp only [List.length_nil, List.nil_append] at hf
  rw [hf, initsSeg_map_getLastD (fun s => levRec s t2) t1 [] 0]
  simp

theorem levenshtein_distance_eq (t1 t2 : Trace) :
    levenshtein_distance t1 t2 = levRec t1.event_list t2.event_list := by
  rw [levenshtein_distance]
  by_cases h : t1.length > t2.length
  · rw [if_pos h, levCore_eq, levRec_symm]
  · rw [if_neg h, levCore_eq]

/-- Claim C8: the implemented `_levenshtein_distance` is symmetric, satisfies
the triangle inequality, and vanishes on identical traces. -/
theorem claim_C8 :
    (∀ t1 t2 : Trace, levenshtein_distance t1 t2 = levenshtein_distance t2 t1) ∧
    (∀ t1 t2 t3 : Trace,
      levenshtein_distance t1 t3 ≤
        levenshtein_distance t1 t2 + levenshtein_distance t2 t3) ∧
    (∀ t : Trace, levenshtein_distance t t = 0) := by
  refine ⟨?_, ?_, ?_⟩
  · intro t1 t2
    rw [levenshtein_distance_eq, levenshtein_distance_eq, levRec_symm]
  · intro t1 t2 t3
    rw [levenshtein_distance_eq, levenshtein_distance_eq, levenshtein_distance_eq]
    exact levRec_triangle _ _ _
  · intro t
    rw [levenshtein_distance_eq, levRec_self]

/-! ### Claim C1: the edit-distance metric formula -/

theorem edit_fold (t0 : Trace) :
    ∀ (rest : List Trace) (acc : Nat × Nat),
      (∀ ti ∈ rest, t0.event_list ≠ ti.event_list) →
      rest.foldl (fun (acc : Nat × Nat) trace_2 =>
        if t0.event_list ≠ trace_2.event_list then
          (acc.1 + levenshtein_distance t0 trace_2 * t0.frequency * trace_2.frequency,
           acc.2 + 1)
        else acc) acc =
      (acc.1 +
        (rest.map fun ti => levenshtein_distance t0 ti * t0.frequency * ti.frequency).sum,
       acc.2 + rest.length) := by
  intro rest
  induction rest with
  | nil =>
    intro acc h
    simp
  | cons ti rest ih =>
    intro acc h
    rw [List.foldl_cons, if_pos (h ti (List.mem_cons_self ti rest))]
    rw [ih _ fun u hu => h u (List.mem_cons_of_mem ti hu)]
    simp only [List.map_cons, List.sum_cons, List.length_cons, Prod.mk.injEq]
    constructor <;> omega

/-- The anchored weighted-average formula computed by
`compute_edit_distance_variability` on a store with distinct sequences. -/
theorem edit_distance_formula (L : Log) (t0 : Trace) (rest : List Trace)
    (hL : L.trace_list = t0 :: rest) (hne : rest ≠ [])
    (hdist : L.trace_list.Pairwise fun a b => a.event_list ≠ b.event_list) :
    compute_edit_distance_variability L =
      some
        (((rest.map fun ti =>
            levenshtein_distance t0 ti * t0.frequency * ti.frequency).sum : ℚ) /
          (rest.length : ℚ)) := by
  rcases L with ⟨d, ts⟩
  dsimp only at hL hdist
  subst hL
  rw [List.pairwise_cons] at hdist
  simp only [compute_edit_distance_variability]
  rw [List.foldl_cons,
    if_neg (show ¬(t0.event_list ≠ t0.event_list) from fun hcon => hcon rfl)]
  rw [edit_fold t0 rest (0, 0) hdist.1]
  dsimp only
  have hlen : ¬(0 + rest.length = 0) := by
    intro hzero
    exact hne (List.length_eq_zero.mp (by omega))
  rw [if_neg hlen]
  simp

/-- Claim C1: on a store of n ≥ 2 pairwise sequence-distinct traces, the metric
is the sum over the non-anchor traces of levenshtein(t0, ti)·f0·fi, divided by
the number of pairs compared (n - 1); in particular the log with unique
sequences [a], [a,b], [a,b,c] yields 3/2. -/
theorem claim_C1 :
    (∀ (L : Log) (t0 : Trace) (rest : List Trace),
      L.trace_list = t0 :: rest → rest ≠ [] →
      (L.trace_list.Pairwise fun a b => a.event_list ≠ b.event_list) →
      compute_edit_distance_variability L =
        some
          (((rest.map fun ti =>
              levenshtein_distance t0 ti * t0.frequency * ti.frequency).sum : ℚ) /
            (rest.length : ℚ))) ∧
    compute_edit_distance_variability (loadLog [["a"], ["a", "b"], ["a", "b", "c"]]) =
      some (3 / 2) := by
  constructor
  · exact edit_distance_formula
  · have h := edit_distance_formula (loadLog [["a"], ["a", "b"], ["a", "b", "c"]])
      ⟨[⟨0, "a"⟩], 1⟩
      [⟨[⟨0, "a"⟩, ⟨1, "b"⟩], 1⟩, ⟨[⟨0, "a"⟩, ⟨1, "b"⟩, ⟨2, "c"⟩], 1⟩]
      (by decide) (by decide) (by decide)
    rw [h]
    have hsum : ([⟨[⟨0, "a"⟩, ⟨1, "b"⟩], 1⟩,
        ⟨[⟨0, "a"⟩, ⟨1, "b"⟩, ⟨2, "c"⟩], 1⟩].map fun ti =>
          levenshtein_distance ⟨[⟨0, "a"⟩], 1⟩ ti * (⟨[⟨0, "a"⟩], 1⟩ : Trace).frequency *
            ti.frequency).sum = 3 := by decide
    rw [hsum]
    norm_num

/-- Witness for claim C1's hypothesis-bearing conjunct at a concrete input. -/
theorem claim_C1_witness :
    compute_edit_distance_variability (loadLog [["a"], ["b"]]) =
      some
        ((([⟨[⟨1, "b"⟩], 1⟩].map fun ti =>
            levenshtein_distance ⟨[⟨0, "a"⟩], 1⟩ ti * (⟨[⟨0, "a"⟩], 1⟩ : Trace).frequency *
              ti.frequency).sum : ℚ) /
          (([⟨[⟨1, "b"⟩], 1⟩] : List Trace).length : ℚ)) :=
  claim_C1.1 (loadLog [["a"], ["b"]]) ⟨[⟨0, "a"⟩], 1⟩ [⟨[⟨1, "b"⟩], 1⟩]
    (by decide) (by decide) (by decide)

/-! ### Claim C6: degenerate inputs -/

/-- Claim C6 fails on the code: with a single unique trace the edit-distance
metric hits the division `distance / 0` (a ZeroDivisionError in Python,
modeled as `none`), and on an empty log the prefix-entropy metric silently
returns 0; neither surfaces a sentinel or a named DegenerateInputError. -/
theorem claim_C6 :
    compute_edit_distance_variability (loadLog [["a"]]) = none ∧
    compute_my_variability (loadLog []) = 0 := by
  constructor
  · decide
  · have h : prefList (loadLog []) = [] := rfl
    rw [compute_my_variability, h]
    simp
